import Mathlib

/-!
Verification of the in-memory database engine (`src/Base/Model.ts` : classes
`Model` and `Database`).

The TypeScript `Database` holds three pieces of state: an `autoincrement`
counter, a `records` map (identity -> definition) and a `lastQuery` map (the
query scope).  Both maps are JavaScript `Map`s, i.e. insertion-ordered key
value stores; we model them as association lists over `Nat` keys, with
`aset` / `aerase` / `alookup` mirroring `Map.set` / `Map.delete` / `Map.get`.

A record definition (`TInterfacedModel`) is modelled as a total assignment of
values to columns, `Rec C V := C -> V`.  The identity is never part of the
definition (the interface "should not contain `id`"); the `Model` projection
carries it separately, exactly as the TypeScript `Model` base class does.
-/

namespace TsDB

/-- A record definition: a value for every column of the interfaced model. -/
def Rec (C V : Type) : Type := C → V

/-- Field assignment `r[c] = v` on a definition object. -/
def setField {C V : Type} [DecidableEq C] (r : Rec C V) (c : C) (v : V) : Rec C V :=
  fun c' => if c' = c then v else r c'

/-- A JavaScript `Map<number, α>`: an insertion-ordered association list. -/
abbrev JMap (α : Type) : Type := List (Nat × α)

/-- `Map.get(i)`. -/
def alookup {α : Type} : JMap α → Nat → Option α
  | [], _ => none
  | (k, v) :: rest, i => if i = k then some v else alookup rest i

/-- `Map.set(k, v)`: updates the value in place when the key exists (keeping
its insertion position), otherwise appends the new entry. -/
def aset {α : Type} : JMap α → Nat → α → JMap α
  | [], k, v => [(k, v)]
  | (k', v') :: rest, k, v =>
      if k' = k then (k', v) :: rest else (k', v') :: aset rest k v

/-- The removal performed by `Map.delete(k)` (drops the entry under `k`). -/
def aerase {α : Type} : JMap α → Nat → JMap α
  | [], _ => []
  | (k', v') :: rest, k => if k' = k then rest else (k', v') :: aerase rest k

/-- The keys of the map, in insertion order. -/
def akeys {α : Type} (m : JMap α) : List Nat := m.map Prod.fst

/-- A materialized model: a read-only identity plus the definition's fields
(`Model` in `Model.ts`). -/
structure Model (C V : Type) where
  id : Option Nat
  fields : Rec C V

/-- The Database engine state (`Database` in `Model.ts`): the autoincrement
counter, the record collection and the query scope (`lastQuery`). -/
structure Database (C V : Type) where
  autoincrement : Nat
  records : JMap (Rec C V)
  lastQuery : JMap (Rec C V)

variable {C V : Type}

/-- `createFromTemplate`: `new Model(Object.assign({ id }, definition))` —
builds a model exposing the given identity and the definition's fields. -/
def createFromTemplate (definition : Rec C V) (id : Nat) : Model C V :=
  ⟨some id, definition⟩

/-- `all()`: a model for every stored record, in map iteration order. -/
def Database.all (db : Database C V) : List (Model C V) :=
  db.records.map (fun p => createFromTemplate p.2 p.1)

/-- `count(scopedSize)`: size of the query scope, or of the records map. -/
def Database.count (db : Database C V) (scopedSize : Bool) : Nat :=
  if scopedSize then db.lastQuery.length else db.records.length

/-- The loop of `delete()`: walk the scope entries, `Map.delete` each key from
the records (counting the successful removals). -/
def deleteGo {C V : Type} : List (Nat × Rec C V) → JMap (Rec C V) → Nat × JMap (Rec C V)
  | [], records => (0, records)
  | (i, _) :: rest, records =>
      let hit := (alookup records i).isSome
      let res := deleteGo rest (aerase records i)
      (if hit then res.1 + 1 else res.1, res.2)

/-- `delete()`: removes every scope identity from the records, clears the
scope, returns the number of records actually removed. -/
def Database.delete (db : Database C V) : Nat × Database C V :=
  let res := deleteGo db.lastQuery db.records
  (res.1, { db with records := res.2, lastQuery := [] })

/-- `find(index)`: O(1) lookup; `undefined` (here `none`) when absent. -/
def Database.find (db : Database C V) (index : Nat) : Option (Model C V) :=
  match alookup db.records index with
  | none => none
  | some model => some (createFromTemplate model index)

/-- `switchRecordsRetrieval(state)`: the scope when `state`, else the records. -/
def Database.switchRecordsRetrieval (db : Database C V) (state : Bool) : JMap (Rec C V) :=
  if state then db.lastQuery else db.records

/-- `first(retrieveFromLastQuery)`: the first entry of the chosen map; returns
early (state untouched) when that map is empty, otherwise clears the scope and
materializes the entry. -/
def Database.first (db : Database C V) (retrieveFromLastQuery : Bool) :
    Option (Model C V) × Database C V :=
  match db.switchRecordsRetrieval retrieveFromLastQuery with
  | [] => (none, db)
  | (i, r) :: _ => (some (createFromTemplate r i), { db with lastQuery := [] })

/-- `get()`: materializes every scope entry, then clears the scope. -/
def Database.get (db : Database C V) : List (Model C V) × Database C V :=
  (db.lastQuery.map (fun p => createFromTemplate p.2 p.1), { db with lastQuery := [] })

/-- `insert(definition)`: pre-increments the counter, stores the definition
under the new identity, returns the materialized model. -/
def Database.insert (db : Database C V) (definition : Rec C V) :
    Model C V × Database C V :=
  let newId := db.autoincrement + 1
  (createFromTemplate definition newId,
   { db with autoincrement := newId, records := aset db.records newId definition })

/-- `last(retrieveFromLastQuery)`: looks the *current autoincrement value* up
in the chosen map; returns early (state untouched) when absent, otherwise
clears the scope and materializes the entry. -/
def Database.last (db : Database C V) (retrieveFromLastQuery : Bool) :
    Option (Model C V) × Database C V :=
  match alookup (db.switchRecordsRetrieval retrieveFromLastQuery) db.autoincrement with
  | none => (none, db)
  | some lastModel =>
      (some (createFromTemplate lastModel db.autoincrement), { db with lastQuery := [] })

/-- `truncate()`: clears both maps; the autoincrement counter is untouched. -/
def Database.truncate (db : Database C V) : Database C V :=
  { db with records := [], lastQuery := [] }

/-- The loop of `update(where, value)`: for each scope entry, fetch the
backing record (throwing when absent), write the field on the scope's record
reference and on the backing records entry.  The returned `Option String` is
the thrown error; on a throw the remaining entries are left untouched, exactly
as an exception aborts the TypeScript loop. -/
def updateGo [DecidableEq C] (c : C) (v : V) :
    List (Nat × Rec C V) → JMap (Rec C V) →
      List (Nat × Rec C V) × JMap (Rec C V) × Option String
  | [], records => ([], records, none)
  | (i, r) :: rest, records =>
      match alookup records i with
      | none =>
          ((i, r) :: rest, records,
            some ("Record under " ++ toString i ++ " did not exist in the database"))
      | some dbModel =>
          let res := updateGo c v rest (aset records i (setField dbModel c v))
          ((i, setField r c v) :: res.1, res.2.1, res.2.2)

/-- `update(where, value)`: parallel field write on the scope and the records
for every scope identity; does not clear the scope; returns `this` (the new
state) together with the error, if one was thrown. -/
def Database.update [DecidableEq C] (db : Database C V) (c : C) (v : V) :
    Database C V × Option String :=
  let res := updateGo c v db.lastQuery db.records
  ({ db with records := res.2.1, lastQuery := res.1 }, res.2.2)

/-- The scan loop of `where(column, value)`: walk the records and `Map.set`
every strictly-equal match into the scope. -/
def whereGo [DecidableEq C] [DecidableEq V] (whereColumn : C) (value : V) :
    List (Nat × Rec C V) → JMap (Rec C V) → JMap (Rec C V)
  | [], lastQuery => lastQuery
  | (i, r) :: rest, lastQuery =>
      whereGo whereColumn value rest
        (if r whereColumn = value then aset lastQuery i r else lastQuery)

/-- The non-identity branch of `where`: a full scan of the records, matches
appended into the existing scope. -/
def Database.whereCol [DecidableEq C] [DecidableEq V] (db : Database C V)
    (whereColumn : C) (value : V) : Database C V :=
  { db with lastQuery := whereGo whereColumn value db.records db.lastQuery }

/-- `whereIndexed(index)`: direct records lookup; when present, `Map.set`s
the entry into the scope. -/
def Database.whereIndexed (db : Database C V) (index : Nat) : Database C V :=
  match alookup db.records index with
  | none => db
  | some model => { db with lastQuery := aset db.lastQuery index model }

/-- The argument of `where`: its column is either the identity field `"id"`
(whose value is a number) or an interfaced-model column. -/
inductive WhereClause (C V : Type) where
  | onId (value : Nat)
  | onCol (whereColumn : C) (value : V)

/-- `where(whereColumn, value)`: dispatches to `whereIndexed` when the column
is `"id"`, otherwise runs the full scan. -/
def Database.whereClause [DecidableEq C] [DecidableEq V] (db : Database C V) :
    WhereClause C V → Database C V
  | .onId value => db.whereIndexed value
  | .onCol c v => db.whereCol c v

/-- One call of the public interface, for reachability arguments. -/
inductive Op (C V : Type) where
  | insert (d : Rec C V)
  | find (index : Nat)
  | all
  | count (scopedSize : Bool)
  | whereOp (w : WhereClause C V)
  | get
  | first (retrieveFromLastQuery : Bool)
  | last (retrieveFromLastQuery : Bool)
  | update (c : C) (v : V)
  | delete
  | truncate

/-- The state transition of one public call (return values discarded). -/
def applyOp [DecidableEq C] [DecidableEq V] (db : Database C V) : Op C V → Database C V
  | .insert d => (db.insert d).2
  | .find _ => db
  | .all => db
  | .count _ => db
  | .whereOp w => db.whereClause w
  | .get => (db.get).2
  | .first b => (db.first b).2
  | .last b => (db.last b).2
  | .update c v => (db.update c v).1
  | .delete => (db.delete).2
  | .truncate => db.truncate

/-- Runs a call sequence left to right. -/
def runOps [DecidableEq C] [DecidableEq V] (db : Database C V) : List (Op C V) → Database C V
  | [] => db
  | op :: rest => runOps (applyOp db op) rest

/-- A freshly constructed database. -/
def emptyDB {C V : Type} : Database C V := ⟨0, [], []⟩

/-- The identities handed out by the `insert` calls of a run, in order. -/
def insertedIds [DecidableEq C] [DecidableEq V] (db : Database C V) :
    List (Op C V) → List Nat
  | [] => []
  | op :: rest =>
      match op with
      | .insert _ => (db.autoincrement + 1) :: insertedIds (applyOp db op) rest
      | _ => insertedIds (applyOp db op) rest

/-- The scope-consistency invariant: every scope identity is a records key. -/
def ScopeSub (db : Database C V) : Prop :=
  ∀ i ∈ akeys db.lastQuery, i ∈ akeys db.records

/-!
Heap view of the engine, for the object-identity claim about retrieved
models.  JavaScript `Map` values are object references; `createFromTemplate`
builds `new Model(Object.assign({ id }, definition))`, so the model's
accessors proxy to a *freshly allocated copy* of the stored definition, never
to the stored object itself.  Here the object graph is made explicit: a heap
maps references (numbers) to definition objects, the maps of the database
hold references, and a model holds the reference its accessors proxy to.
The scope bookkeeping of the retrieval operations is proved on the pure
model above; the heap view only tracks the object graph they build.
-/

/-- An object heap: allocated definition objects, plus the next fresh
reference. -/
structure Heap (C V : Type) where
  store : JMap (Rec C V)
  next : Nat

/-- Dereference an object. -/
def Heap.read (h : Heap C V) (ref : Nat) : Option (Rec C V) :=
  alookup h.store ref

/-- Allocate a fresh object holding the given field values (what an object
literal or `Object.assign` into `{ id }` produces). -/
def Heap.alloc (h : Heap C V) (r : Rec C V) : Nat × Heap C V :=
  (h.next, ⟨aset h.store h.next r, h.next + 1⟩)

/-- The `Model` setter `(value) => (definition[key] = value)`: writes one
field of the object behind `ref`, in place. -/
def Heap.writeField [DecidableEq C] (h : Heap C V) (ref : Nat) (c : C) (v : V) : Heap C V :=
  match alookup h.store ref with
  | none => h
  | some r => { h with store := aset h.store ref (setField r c v) }

/-- A materialized model in the heap view: the identity plus the reference to
the definition object its accessors proxy to. -/
structure HModel where
  id : Option Nat
  defRef : Nat

/-- Assigning to a model's field: the accessor writes through to the model's
backing definition object. -/
def HModel.setF [DecidableEq C] (m : HModel) (h : Heap C V) (c : C) (v : V) : Heap C V :=
  h.writeField m.defRef c v

/-- The database state in the heap view: both maps hold object references. -/
structure HDatabase where
  autoincrement : Nat
  records : List (Nat × Nat)
  lastQuery : List (Nat × Nat)

/-- `switchRecordsRetrieval` in the heap view. -/
def hSwitch (db : HDatabase) (state : Bool) : List (Nat × Nat) :=
  if state then db.lastQuery else db.records

/-- `createFromTemplate` in the heap view: `Object.assign({ id }, definition)`
copies the definition's current field values into a fresh object, and the
model proxies to that fresh object. -/
def hCreateFromTemplate (h : Heap C V) (definition : Rec C V) (id : Nat) :
    HModel × Heap C V :=
  let res := h.alloc definition
  (⟨some id, res.1⟩, res.2)

/-- `find` in the heap view.  The inner `none` branch is dead in well-formed
states: a reference held by a JavaScript `Map` always denotes a live object. -/
def HDatabase.findH (db : HDatabase) (h : Heap C V) (index : Nat) :
    Option HModel × Heap C V :=
  match alookup db.records index with
  | none => (none, h)
  | some ref =>
      match h.read ref with
      | none => (none, h)
      | some defn =>
          let res := hCreateFromTemplate h defn index
          (some res.1, res.2)

/-- `first` in the heap view. -/
def HDatabase.firstH (db : HDatabase) (h : Heap C V) (retrieveFromLastQuery : Bool) :
    Option HModel × Heap C V :=
  match hSwitch db retrieveFromLastQuery with
  | [] => (none, h)
  | (i, ref) :: _ =>
      match h.read ref with
      | none => (none, h)
      | some defn =>
          let res := hCreateFromTemplate h defn i
          (some res.1, res.2)

/-- `last` in the heap view. -/
def HDatabase.lastH (db : HDatabase) (h : Heap C V) (retrieveFromLastQuery : Bool) :
    Option HModel × Heap C V :=
  match alookup (hSwitch db retrieveFromLastQuery) db.autoincrement with
  | none => (none, h)
  | some ref =>
      match h.read ref with
      | none => (none, h)
      | some defn =>
          let res := hCreateFromTemplate h defn db.autoincrement
          (some res.1, res.2)

/-- Materialize a model for every entry of a map, in iteration order (the
loops of `all()` and `get()`). -/
def materializeAll (h : Heap C V) : List (Nat × Nat) → List HModel × Heap C V
  | [] => ([], h)
  | (i, ref) :: rest =>
      match h.read ref with
      | none => materializeAll h rest
      | some defn =>
          let res := hCreateFromTemplate h defn i
          let tl := materializeAll res.2 rest
          (res.1 :: tl.1, tl.2)

/-- `all()` in the heap view. -/
def HDatabase.allH (db : HDatabase) (h : Heap C V) : List HModel × Heap C V :=
  materializeAll h db.records

/-- `get()` in the heap view. -/
def HDatabase.getH (db : HDatabase) (h : Heap C V) : List HModel × Heap C V :=
  materializeAll h db.lastQuery

/-- The record stored under an identity, read through the heap. -/
def readRecord (db : HDatabase) (h : Heap C V) (i : Nat) : Option (Rec C V) :=
  (alookup db.records i).bind (fun ref => h.read ref)

/-- Mutating any returned model's fields leaves every stored record intact. -/
def MutationSafe [DecidableEq C] (db : HDatabase) (res : List HModel × Heap C V) : Prop :=
  ∀ m ∈ res.1, ∀ (c : C) (v : V) (i : Nat),
    readRecord db (HModel.setF m res.2 c v) i = readRecord db res.2 i

/-- A single-model result, seen as a result list. -/
def optRes (res : Option HModel × Heap C V) : List HModel × Heap C V :=
  (res.1.toList, res.2)

/-- All record references of the database denote already-allocated objects. -/
def RefsBelow (db : HDatabase) (h : Heap C V) : Prop :=
  ∀ p ∈ db.records, p.2 < h.next

/-- The statement checked for every retrieval operation: the models any of
them returns can be mutated without changing any stored record. -/
def RetrievalsSafe [DecidableEq C] (db : HDatabase) (h : Heap C V) : Prop :=
  (∀ index : Nat, MutationSafe db (optRes (db.findH h index))) ∧
  (∀ b : Bool, MutationSafe db (optRes (db.firstH h b))) ∧
  (∀ b : Bool, MutationSafe db (optRes (db.lastH h b))) ∧
  MutationSafe db (db.allH h) ∧
  MutationSafe db (db.getH h)

/-!
Concrete instances used by counterexamples and witnesses.  Columns are
numbers, field values are integers; `recN` is the definition whose every
column holds `N`.
-/

/-- A definition whose every field is `1`. -/
def rec1 : Rec Nat Int := fun _ => 1

/-- A definition whose every field is `2`. -/
def rec2 : Rec Nat Int := fun _ => 2

/-- A definition whose every field is `3`. -/
def rec3 : Rec Nat Int := fun _ => 3

/-- Two inserts, then a scan filter selecting record 2 into the scope. -/
def dbC1 : Database Nat Int :=
  runOps emptyDB [.insert rec1, .insert rec2, .whereOp (.onCol 0 2)]

/-- Two inserts, then a scan filter selecting record 1 into the scope. -/
def dbC2 : Database Nat Int :=
  runOps emptyDB [.insert rec1, .insert rec2, .whereOp (.onCol 0 1)]

/-- Three inserts, with a scan filter pending in the scope. -/
def dbC3 : Database Nat Int :=
  runOps emptyDB [.insert rec1, .insert rec2, .insert rec3]

/-- Three inserts, then the record holding the maximum identity deleted. -/
def dbC7 : Database Nat Int :=
  runOps emptyDB
    [.insert rec1, .insert rec2, .insert rec3, .whereOp (.onId 3), .delete]

/-- A run with a truncate between two inserts. -/
def opsC6 : List (Op Nat Int) := [.insert rec1, .truncate, .insert rec2]

/-- A one-record database in the heap view. -/
def dbHW : HDatabase := ⟨1, [(1, 0)], []⟩

/-- The heap backing `dbHW`: one stored definition object at reference 0. -/
def hHW : Heap Nat Int := ⟨[(0, rec1)], 1⟩


/-!
Conclusion predicates for the larger claims: stated as definitions so that the
concrete witnesses can restate the exact conclusion at a concrete input.
-/

/-- What two chained non-identity `where` calls compute, starting from an empty
scope: the records are untouched, and an identity lands in the scope exactly
when its record matches either call (a union of two independent full scans,
not an intersection). -/
def C3Concl [DecidableEq C] [DecidableEq V] (db : Database C V)
    (c1 c2 : C) (v1 v2 : V) : Prop :=
  ((db.whereClause (.onCol c1 v1)).whereClause (.onCol c2 v2)).records = db.records ∧
  ∀ i, alookup (((db.whereClause (.onCol c1 v1)).whereClause (.onCol c2 v2)).lastQuery) i =
    match alookup db.records i with
    | some r => if r c1 = v1 ∨ r c2 = v2 then some r else none
    | none => none

/-- What `delete()` does: clears the scope, returns the number of scope
identities actually present in the records, removes exactly the scope
identities, a second immediate `delete()` returns 0, and after a `where`
matching N records (from an empty scope) it returns N. -/
def C8Concl [DecidableEq C] [DecidableEq V] (db : Database C V) : Prop :=
  (db.delete).2.lastQuery = [] ∧
  (db.delete).1 =
      ((akeys db.lastQuery).filter (fun i => decide (i ∈ akeys db.records))).length ∧
  (∀ i, alookup (db.delete).2.records i =
      if i ∈ akeys db.lastQuery then none else alookup db.records i) ∧
  ((db.delete).2.delete).1 = 0 ∧
  (∀ (cw : C) (vw : V), db.lastQuery = [] →
      ((db.whereCol cw vw).delete).1 = db.records.countP (fun p => decide (p.2 cw = vw)))

/-! Map lemmas: how `alookup`, `aset`, `aerase`, `akeys` interact. -/

theorem akeys_nil {α : Type} : akeys ([] : JMap α) = [] := rfl

theorem akeys_cons {α : Type} (p : Nat × α) (m : JMap α) :
    akeys (p :: m) = p.1 :: akeys m := rfl

theorem alookup_aset {α : Type} (m : JMap α) (k : Nat) (v : α) (i : Nat) :
    alookup (aset m k v) i = if i = k then some v else alookup m i := by
  induction m with
  | nil => simp [aset, alookup]
  | cons p rest ih =>
      obtain ⟨k', v'⟩ := p
      by_cases hk : k' = k <;> by_cases hi : i = k' <;>
        simp_all [aset, alookup]

theorem mem_akeys {α : Type} (m : JMap α) (i : Nat) :
    i ∈ akeys m ↔ ∃ v, (i, v) ∈ m := by
  constructor
  · intro h
    obtain ⟨p, hp, he⟩ := List.mem_map.mp h
    exact ⟨p.2, by simpa [← he] using hp⟩
  · rintro ⟨v, hv⟩
    exact List.mem_map.mpr ⟨(i, v), hv, rfl⟩

theorem alookup_isSome_iff {α : Type} (m : JMap α) (i : Nat) :
    (alookup m i).isSome = true ↔ i ∈ akeys m := by
  induction m with
  | nil => simp [alookup, akeys]
  | cons p rest ih =>
      obtain ⟨k, v⟩ := p
      by_cases hi : i = k <;> simp_all [alookup, akeys_cons]

theorem alookup_eq_none_iff {α : Type} (m : JMap α) (i : Nat) :
    alookup m i = none ↔ i ∉ akeys m := by
  rw [← alookup_isSome_iff]
  cases alookup m i <;> simp

theorem alookup_mem {α : Type} {m : JMap α} {i : Nat} {v : α}
    (h : alookup m i = some v) : (i, v) ∈ m := by
  induction m with
  | nil => simp [alookup] at h
  | cons p rest ih =>
      obtain ⟨k, w⟩ := p
      by_cases hi : i = k
      · simp [alookup, hi] at h
        simp [hi, h]
      · simp [alookup, hi] at h
        exact List.mem_cons_of_mem _ (ih h)

theorem mem_akeys_aset {α : Type} (m : JMap α) (k : Nat) (v : α) (i : Nat) :
    i ∈ akeys (aset m k v) ↔ i ∈ akeys m ∨ i = k := by
  induction m with
  | nil => simp [aset, akeys]
  | cons p rest ih =>
      obtain ⟨k', v'⟩ := p
      by_cases hk : k' = k <;> simp_all [aset, akeys_cons] <;> tauto

theorem akeys_aset_of_mem {α : Type} {m : JMap α} {k : Nat} (v : α)
    (h : k ∈ akeys m) : akeys (aset m k v) = akeys m := by
  induction m with
  | nil => simp [akeys] at h
  | cons p rest ih =>
      obtain ⟨k', v'⟩ := p
      by_cases hk : k' = k
      · simp [aset, hk, akeys_cons]
      · have hr : k ∈ akeys rest := by
          rw [akeys_cons] at h
          rcases List.mem_cons.mp h with he | hm
          · exact absurd he.symm hk
          · exact hm
        simp [aset, hk, akeys_cons, ih hr]

theorem aset_of_not_mem {α : Type} {m : JMap α} {k : Nat} (v : α)
    (h : k ∉ akeys m) : aset m k v = m ++ [(k, v)] := by
  induction m with
  | nil => simp [aset]
  | cons p rest ih =>
      obtain ⟨k', v'⟩ := p
      rw [akeys_cons] at h
      have hk : ¬ k' = k := fun he => h (by simp [he])
      have hr : k ∉ akeys rest := fun hm => h (List.mem_cons_of_mem _ hm)
      simp [aset, hk, ih hr]

theorem mem_aset_of_ne {α : Type} {m : JMap α} {p : Nat × α} {k : Nat} (v : α)
    (hp : p ∈ m) (hne : p.1 ≠ k) : p ∈ aset m k v := by
  induction m with
  | nil => simp at hp
  | cons q rest ih =>
      obtain ⟨k', v'⟩ := q
      by_cases hk : k' = k
      · rcases List.mem_cons.mp hp with he | hm
        · exact absurd (by rw [he]; exact hk) hne
        · simp [aset, hk, List.mem_cons, hm]
      · rcases List.mem_cons.mp hp with he | hm
        · simp [aset, hk, he]
        · simp only [aset, hk, if_false, List.mem_cons]
          exact Or.inr (ih hm)

theorem aerase_sublist {α : Type} (m : JMap α) (k : Nat) :
    List.Sublist (aerase m k) m := by
  induction m with
  | nil => simp [aerase]
  | cons p rest ih =>
      obtain ⟨k', v'⟩ := p
      by_cases hk : k' = k
      · simp only [aerase, hk, if_pos rfl]
        exact List.sublist_cons_self _ _
      · simp only [aerase, hk, if_false]
        exact List.Sublist.cons₂ _ ih

theorem akeys_aerase_nodup {α : Type} {m : JMap α} (k : Nat)
    (h : (akeys m).Nodup) : (akeys (aerase m k)).Nodup :=
  h.sublist ((aerase_sublist m k).map Prod.fst)

theorem alookup_aerase {α : Type} {m : JMap α} (hnd : (akeys m).Nodup)
    (k i : Nat) :
    alookup (aerase m k) i = if i = k then none else alookup m i := by
  induction m with
  | nil => simp [aerase, alookup]
  | cons p rest ih =>
      obtain ⟨k', v'⟩ := p
      rw [akeys_cons] at hnd
      have hnd' : (akeys rest).Nodup := (List.nodup_cons.mp hnd).2
      have hk' : k' ∉ akeys rest := (List.nodup_cons.mp hnd).1
      by_cases hk : k' = k
      · by_cases hi : i = k'
        · have hik : i = k := hi.trans hk
          have hnone : alookup rest k = none := by
            rw [alookup_eq_none_iff, ← hik, hi]
            exact hk'
          simp [aerase, hk, hik, hnone, alookup, hi]
        · have hik : ¬ i = k := fun he => hi (he.trans hk.symm)
          simp [aerase, alookup, hk, hi, hik]
      · by_cases hi : i = k'
        · have hik : ¬ i = k := fun he => hk (hi.symm.trans he)
          simp [aerase, alookup, hk, hi, hik]
        · simp [aerase, alookup, hk, hi, ih hnd']

theorem mem_akeys_aerase {α : Type} {m : JMap α} (hnd : (akeys m).Nodup)
    (k i : Nat) :
    i ∈ akeys (aerase m k) ↔ i ∈ akeys m ∧ i ≠ k := by
  rw [← alookup_isSome_iff, ← alookup_isSome_iff, alookup_aerase hnd]
  by_cases hi : i = k <;> simp [hi]


/-! Characterization of the `where` scan loop. -/

theorem alookup_whereGo [DecidableEq C] [DecidableEq V] (c : C) (v : V)
    (l : List (Nat × Rec C V)) (s : JMap (Rec C V))
    (hnd : (akeys l).Nodup) (i : Nat) :
    alookup (whereGo c v l s) i =
      match alookup l i with
      | some r => if r c = v then some r else alookup s i
      | none => alookup s i := by
  induction l generalizing s with
  | nil => simp [whereGo, alookup]
  | cons p rest ih =>
      obtain ⟨j, r⟩ := p
      rw [akeys_cons] at hnd
      have hnd' : (akeys rest).Nodup := (List.nodup_cons.mp hnd).2
      have hj : j ∉ akeys rest := (List.nodup_cons.mp hnd).1
      by_cases hi : i = j
      · have hrest : alookup rest j = none := by
          rw [alookup_eq_none_iff]
          exact hj
        rw [whereGo, ih _ hnd']
        by_cases hm : r c = v
        · simp [hrest, alookup, hi, hm, alookup_aset]
        · simp [hrest, alookup, hi, hm]
      · rw [whereGo, ih _ hnd']
        by_cases hm : r c = v
        · simp [alookup, hi, hm, alookup_aset]
        · simp [alookup, hi, hm]

theorem mem_akeys_whereGo [DecidableEq C] [DecidableEq V] {c : C} {v : V}
    {l : List (Nat × Rec C V)} {s : JMap (Rec C V)} {i : Nat}
    (h : i ∈ akeys (whereGo c v l s)) : i ∈ akeys s ∨ i ∈ akeys l := by
  induction l generalizing s with
  | nil => exact Or.inl (by simpa [whereGo] using h)
  | cons p rest ih =>
      obtain ⟨j, r⟩ := p
      by_cases hm : r c = v
      · rw [whereGo, if_pos hm] at h
        rcases ih h with hs | hr
        · rcases (mem_akeys_aset _ _ _ _).mp hs with h1 | h1
          · exact Or.inl h1
          · exact Or.inr (by simp [akeys_cons, h1])
        · exact Or.inr (by simp [akeys_cons, Or.inr hr])
      · rw [whereGo, if_neg hm] at h
        rcases ih h with hs | hr
        · exact Or.inl hs
        · exact Or.inr (by simp [akeys_cons, Or.inr hr])

theorem whereGo_disjoint [DecidableEq C] [DecidableEq V] (c : C) (v : V)
    (l : List (Nat × Rec C V)) (s : JMap (Rec C V))
    (hnd : (akeys l).Nodup) (hdis : ∀ j ∈ akeys l, j ∉ akeys s) :
    whereGo c v l s = s ++ l.filter (fun p => decide (p.2 c = v)) := by
  induction l generalizing s with
  | nil => simp [whereGo]
  | cons p rest ih =>
      obtain ⟨j, r⟩ := p
      rw [akeys_cons] at hnd
      have hnd' : (akeys rest).Nodup := (List.nodup_cons.mp hnd).2
      have hj : j ∉ akeys rest := (List.nodup_cons.mp hnd).1
      by_cases hm : r c = v
      · rw [whereGo, if_pos hm]
        have hjs : j ∉ akeys s := hdis j (by simp [akeys_cons])
        rw [aset_of_not_mem r hjs]
        have hdis' : ∀ i ∈ akeys rest, i ∉ akeys (s ++ [(j, r)]) := by
          intro i hi hmem
          have hmap : akeys (s ++ [(j, r)]) = akeys s ++ [j] := by simp [akeys]
          rw [hmap] at hmem
          rcases List.mem_append.mp hmem with h1' | h1'
          · exact hdis i (by simp [akeys_cons, Or.inr hi]) h1'
          · have h2 : i = j := by simpa using h1'
            exact hj (h2 ▸ hi)
        rw [ih _ hnd' hdis']
        simp [List.filter_cons, hm]
      · rw [whereGo, if_neg hm]
        have hdis' : ∀ i ∈ akeys rest, i ∉ akeys s := by
          intro i hi
          exact hdis i (by simp [akeys_cons, Or.inr hi])
        rw [ih _ hnd' hdis']
        simp [List.filter_cons, hm]

/-! Characterization of the `update` loop. -/

theorem updateGo_scope_akeys [DecidableEq C] (c : C) (v : V)
    (scope : List (Nat × Rec C V)) (records : JMap (Rec C V)) :
    akeys (updateGo c v scope records).1 = akeys scope := by
  induction scope generalizing records with
  | nil => simp [updateGo]
  | cons p rest ih =>
      obtain ⟨j, r⟩ := p
      simp only [updateGo]
      cases h : alookup records j with
      | none => simp
      | some dbm => simp [akeys_cons, ih]

theorem updateGo_records_akeys [DecidableEq C] (c : C) (v : V)
    (scope : List (Nat × Rec C V)) (records : JMap (Rec C V)) :
    akeys (updateGo c v scope records).2.1 = akeys records := by
  induction scope generalizing records with
  | nil => simp [updateGo]
  | cons p rest ih =>
      obtain ⟨j, r⟩ := p
      simp only [updateGo]
      cases h : alookup records j with
      | none => simp
      | some dbm =>
          have hj : j ∈ akeys records := by
            rw [← alookup_isSome_iff, h]
            rfl
          simp only []
          rw [ih]
          exact akeys_aset_of_mem _ hj

theorem updateGo_ok [DecidableEq C] {c : C} {v : V}
    {scope : List (Nat × Rec C V)} {records : JMap (Rec C V)}
    (h : ∀ i ∈ akeys scope, i ∈ akeys records) :
    (updateGo c v scope records).2.2 = none := by
  induction scope generalizing records with
  | nil => simp [updateGo]
  | cons p rest ih =>
      obtain ⟨j, r⟩ := p
      have hj : j ∈ akeys records := h j (by simp [akeys_cons])
      obtain ⟨dbm, hdbm⟩ : ∃ d, alookup records j = some d := by
        have h1 := (alookup_isSome_iff records j).mpr hj
        cases hl : alookup records j with
        | none => rw [hl] at h1; simp at h1
        | some d => exact ⟨d, rfl⟩
      simp only [updateGo, hdbm]
      apply ih
      intro i hi
      rw [akeys_aset_of_mem _ hj]
      exact h i (by simp [akeys_cons, Or.inr hi])

theorem updateGo_err [DecidableEq C] {c : C} {v : V}
    {scope : List (Nat × Rec C V)} {records : JMap (Rec C V)}
    (h : ∃ i, i ∈ akeys scope ∧ i ∉ akeys records) :
    (updateGo c v scope records).2.2.isSome = true := by
  induction scope generalizing records with
  | nil =>
      obtain ⟨i, hi, _⟩ := h
      simp [akeys] at hi
  | cons p rest ih =>
      obtain ⟨j, r⟩ := p
      obtain ⟨i, hi, hni⟩ := h
      cases hl : alookup records j with
      | none => simp [updateGo, hl]
      | some dbm =>
          have hj : j ∈ akeys records := by
            rw [← alookup_isSome_iff, hl]
            rfl
          have hir : i ∈ akeys rest := by
            rw [akeys_cons] at hi
            rcases List.mem_cons.mp hi with he | hm
            · exact absurd (he ▸ hj) hni
            · exact hm
          simp only [updateGo, hl]
          apply ih
          refine ⟨i, hir, ?_⟩
          rw [akeys_aset_of_mem _ hj]
          exact hni

theorem updateGo_char [DecidableEq C] {c : C} {v : V}
    {scope : List (Nat × Rec C V)} {records : JMap (Rec C V)}
    (hnd : (akeys scope).Nodup)
    (h : ∀ i ∈ akeys scope, i ∈ akeys records) :
    (updateGo c v scope records).1 =
        scope.map (fun p => (p.1, setField p.2 c v)) ∧
    ∀ i, alookup (updateGo c v scope records).2.1 i =
      if i ∈ akeys scope then (alookup records i).map (fun r => setField r c v)
      else alookup records i := by
  induction scope generalizing records with
  | nil => simp [updateGo, akeys]
  | cons p rest ih =>
      obtain ⟨j, r⟩ := p
      rw [akeys_cons] at hnd
      have hnd' : (akeys rest).Nodup := (List.nodup_cons.mp hnd).2
      have hjr : j ∉ akeys rest := (List.nodup_cons.mp hnd).1
      have hj : j ∈ akeys records := h j (by simp [akeys_cons])
      obtain ⟨dbm, hdbm⟩ : ∃ d, alookup records j = some d := by
        have h1 := (alookup_isSome_iff records j).mpr hj
        cases hl : alookup records j with
        | none => rw [hl] at h1; simp at h1
        | some d => exact ⟨d, rfl⟩
      have hkeys1 : akeys (aset records j (setField dbm c v)) = akeys records :=
        akeys_aset_of_mem _ hj
      have h' : ∀ i ∈ akeys rest, i ∈ akeys (aset records j (setField dbm c v)) := by
        intro i hi
        rw [hkeys1]
        exact h i (by simp [akeys_cons, Or.inr hi])
      obtain ⟨ihs, ihr⟩ := ih hnd' h'
      constructor
      · simp only [updateGo, hdbm, List.map_cons]
        rw [ihs]
      · intro i
        simp only [updateGo, hdbm]
        rw [ihr i]
        by_cases hij : i = j
        · have hir : i ∉ akeys rest := hij ▸ hjr
          simp [hir, hjr, akeys_cons, hij, alookup_aset, hdbm]
        · by_cases hir : i ∈ akeys rest
          · simp [hir, akeys_cons, hij, alookup_aset]
          · simp [hir, akeys_cons, hij, alookup_aset]

/-! Characterization of the `delete` loop. -/

theorem deleteGo_records {scope : List (Nat × Rec C V)} {records : JMap (Rec C V)}
    (hndr : (akeys records).Nodup) (i : Nat) :
    alookup (deleteGo scope records).2 i =
      if i ∈ akeys scope then none else alookup records i := by
  induction scope generalizing records with
  | nil => simp [deleteGo, akeys]
  | cons p rest ih =>
      obtain ⟨j, r⟩ := p
      have hndr' : (akeys (aerase records j)).Nodup := akeys_aerase_nodup j hndr
      simp only [deleteGo]
      rw [ih hndr']
      by_cases hir : i ∈ akeys rest
      · simp [hir, akeys_cons]
      · by_cases hij : i = j
        · simp [hir, hij, akeys_cons, alookup_aerase hndr]
        · simp [hir, hij, akeys_cons, alookup_aerase hndr]

theorem deleteGo_count {scope : List (Nat × Rec C V)} {records : JMap (Rec C V)}
    (hndr : (akeys records).Nodup) (hnds : (akeys scope).Nodup) :
    (deleteGo scope records).1 =
      ((akeys scope).filter (fun i => decide (i ∈ akeys records))).length := by
  induction scope generalizing records with
  | nil => simp [deleteGo, akeys]
  | cons p rest ih =>
      obtain ⟨j, r⟩ := p
      rw [akeys_cons] at hnds
      have hnds' : (akeys rest).Nodup := (List.nodup_cons.mp hnds).2
      have hjr : j ∉ akeys rest := (List.nodup_cons.mp hnds).1
      have hndr' : (akeys (aerase records j)).Nodup := akeys_aerase_nodup j hndr
      have hfilter :
          (akeys rest).filter (fun i => decide (i ∈ akeys (aerase records j))) =
          (akeys rest).filter (fun i => decide (i ∈ akeys records)) := by
        apply List.filter_congr
        intro i hi
        have hij : i ≠ j := fun he => hjr (he ▸ hi)
        simp [mem_akeys_aerase hndr, hij]
      simp only [deleteGo]
      rw [ih hndr' hnds', hfilter]
      by_cases hj : j ∈ akeys records
      · have hsome : (alookup records j).isSome = true := (alookup_isSome_iff _ _).mpr hj
        simp [akeys_cons, hsome, hj, List.filter_cons]
      · have hnone : alookup records j = none := (alookup_eq_none_iff _ _).mpr hj
        simp [akeys_cons, hnone, hj, List.filter_cons]

/-! State facts about the public operations. -/

theorem applyOp_autoincrement_le [DecidableEq C] [DecidableEq V]
    (db : Database C V) (op : Op C V) :
    db.autoincrement ≤ (applyOp db op).autoincrement := by
  cases op with
  | insert d => simp [applyOp, Database.insert]
  | find idx => exact le_rfl
  | all => exact le_rfl
  | count b => exact le_rfl
  | whereOp w =>
      cases w with
      | onId v =>
          cases h : alookup db.records v <;>
            simp [applyOp, Database.whereClause, Database.whereIndexed, h]
      | onCol cc vv => simp [applyOp, Database.whereClause, Database.whereCol]
  | get => simp [applyOp, Database.get]
  | first b =>
      cases h : db.switchRecordsRetrieval b with
      | nil => simp [applyOp, Database.first, h]
      | cons q rest => simp [applyOp, Database.first, h]
  | last b =>
      cases h : alookup (db.switchRecordsRetrieval b) db.autoincrement with
      | none => simp [applyOp, Database.last, h]
      | some r => simp [applyOp, Database.last, h]
  | update c v => simp [applyOp, Database.update]
  | delete => simp [applyOp, Database.delete]
  | truncate => simp [applyOp, Database.truncate]

theorem applyOp_scopeSub [DecidableEq C] [DecidableEq V]
    {db : Database C V} (hs : ScopeSub db) (op : Op C V) :
    ScopeSub (applyOp db op) := by
  cases op with
  | insert d =>
      intro i hi
      simp only [applyOp, Database.insert] at hi ⊢
      rw [mem_akeys_aset]
      exact Or.inl (hs i hi)
  | find idx => exact hs
  | all => exact hs
  | count b => exact hs
  | whereOp w =>
      cases w with
      | onId v =>
          intro i hi
          cases h : alookup db.records v with
          | none =>
              simp only [applyOp, Database.whereClause, Database.whereIndexed, h] at hi ⊢
              exact hs i hi
          | some r =>
              simp only [applyOp, Database.whereClause, Database.whereIndexed, h] at hi ⊢
              rcases (mem_akeys_aset _ _ _ _).mp hi with h1 | h1
              · exact hs i h1
              · rw [h1, ← alookup_isSome_iff, h]
                rfl
      | onCol cc vv =>
          intro i hi
          simp only [applyOp, Database.whereClause, Database.whereCol] at hi ⊢
          rcases mem_akeys_whereGo hi with h1 | h1
          · exact hs i h1
          · exact h1
  | get =>
      intro i hi
      simp [applyOp, Database.get, akeys] at hi
  | first b =>
      cases h : db.switchRecordsRetrieval b with
      | nil =>
          intro i hi
          simp only [applyOp, Database.first, h] at hi ⊢
          exact hs i hi
      | cons q rest =>
          intro i hi
          simp [applyOp, Database.first, h, akeys] at hi
  | last b =>
      cases h : alookup (db.switchRecordsRetrieval b) db.autoincrement with
      | none =>
          intro i hi
          simp only [applyOp, Database.last, h] at hi ⊢
          exact hs i hi
      | some r =>
          intro i hi
          simp [applyOp, Database.last, h, akeys] at hi
  | update c v =>
      intro i hi
      simp only [applyOp, Database.update] at hi ⊢
      rw [updateGo_scope_akeys] at hi
      rw [updateGo_records_akeys]
      exact hs i hi
  | delete =>
      intro i hi
      simp [applyOp, Database.delete, akeys] at hi
  | truncate =>
      intro i hi
      simp [applyOp, Database.truncate, akeys] at hi

theorem runOps_scopeSub [DecidableEq C] [DecidableEq V]
    {db : Database C V} (hs : ScopeSub db) (ops : List (Op C V)) :
    ScopeSub (runOps db ops) := by
  induction ops generalizing db with
  | nil => exact hs
  | cons op rest ih => exact ih (applyOp_scopeSub hs op)

theorem emptyDB_scopeSub : ScopeSub (emptyDB : Database C V) := by
  intro i hi
  simp [emptyDB, akeys] at hi

theorem runOps_autoincrement_le [DecidableEq C] [DecidableEq V]
    (db : Database C V) (ops : List (Op C V)) :
    db.autoincrement ≤ (runOps db ops).autoincrement := by
  induction ops generalizing db with
  | nil => exact le_rfl
  | cons op rest ih => exact le_trans (applyOp_autoincrement_le db op) (ih _)

theorem insertedIds_le [DecidableEq C] [DecidableEq V]
    (db : Database C V) (ops : List (Op C V)) :
    ∀ i ∈ insertedIds db ops, i ≤ (runOps db ops).autoincrement := by
  induction ops generalizing db with
  | nil =>
      intro i hi
      simp [insertedIds] at hi
  | cons op rest ih =>
      intro i hi
      rw [runOps]
      cases op with
      | insert d =>
          simp only [insertedIds] at hi
          rcases List.mem_cons.mp hi with he | hm
          · have h1 : (applyOp db (Op.insert d)).autoincrement = db.autoincrement + 1 := by
              simp [applyOp, Database.insert]
            rw [he, ← h1]
            exact runOps_autoincrement_le _ _
          · exact ih _ _ hm
      | find idx =>
          simp only [insertedIds] at hi
          exact ih _ _ hi
      | all =>
          simp only [insertedIds] at hi
          exact ih _ _ hi
      | count b =>
          simp only [insertedIds] at hi
          exact ih _ _ hi
      | whereOp w =>
          simp only [insertedIds] at hi
          exact ih _ _ hi
      | get =>
          simp only [insertedIds] at hi
          exact ih _ _ hi
      | first b =>
          simp only [insertedIds] at hi
          exact ih _ _ hi
      | last b =>
          simp only [insertedIds] at hi
          exact ih _ _ hi
      | update c v =>
          simp only [insertedIds] at hi
          exact ih _ _ hi
      | delete =>
          simp only [insertedIds] at hi
          exact ih _ _ hi
      | truncate =>
          simp only [insertedIds] at hi
          exact ih _ _ hi

/-! Heap lemmas: writes through a fresh object leave older objects intact. -/

theorem read_writeField_ne [DecidableEq C] (h : Heap C V) (ref : Nat)
    (c : C) (v : V) {r : Nat} (hne : r ≠ ref) :
    (h.writeField ref c v).read r = h.read r := by
  simp only [Heap.writeField]
  cases hl : alookup h.store ref with
  | none => rfl
  | some x => simp [Heap.read, alookup_aset, hne]

theorem hCreateFromTemplate_defRef (h : Heap C V) (d : Rec C V) (id : Nat) :
    (hCreateFromTemplate h d id).1.defRef = h.next := rfl

theorem hCreateFromTemplate_next (h : Heap C V) (d : Rec C V) (id : Nat) :
    (hCreateFromTemplate h d id).2.next = h.next + 1 := rfl

theorem hCreateFromTemplate_read (h : Heap C V) (d : Rec C V) (id : Nat)
    {r : Nat} (hne : r ≠ h.next) :
    (hCreateFromTemplate h d id).2.read r = h.read r := by
  simp only [hCreateFromTemplate, Heap.alloc, Heap.read]
  rw [alookup_aset]
  simp [hne]

theorem materializeAll_next_le (h : Heap C V) (l : List (Nat × Nat)) :
    h.next ≤ (materializeAll h l).2.next := by
  induction l generalizing h with
  | nil => exact le_rfl
  | cons p rest ih =>
      obtain ⟨i, ref⟩ := p
      cases hread : h.read ref with
      | none => simpa [materializeAll, hread] using ih h
      | some d =>
          have h2 := ih (hCreateFromTemplate h d i).2
          simp only [materializeAll, hread]
          calc h.next ≤ h.next + 1 := Nat.le_succ _
            _ = (hCreateFromTemplate h d i).2.next := rfl
            _ ≤ _ := h2

theorem materializeAll_models_refs (h : Heap C V) (l : List (Nat × Nat)) :
    ∀ m ∈ (materializeAll h l).1, h.next ≤ m.defRef := by
  induction l generalizing h with
  | nil =>
      intro m hm
      simp [materializeAll] at hm
  | cons p rest ih =>
      obtain ⟨i, ref⟩ := p
      intro m hm
      cases hread : h.read ref with
      | none =>
          simp only [materializeAll, hread] at hm
          exact ih h m hm
      | some d =>
          simp only [materializeAll, hread] at hm
          rcases List.mem_cons.mp hm with he | hm'
          · rw [he]
            exact le_rfl
          · have h2 := ih (hCreateFromTemplate h d i).2 m hm'
            calc h.next ≤ h.next + 1 := Nat.le_succ _
              _ ≤ m.defRef := h2

theorem readRecord_write_safe [DecidableEq C] {db : HDatabase} {h0 : Heap C V}
    (hwf : RefsBelow db h0) {h' : Heap C V} {m : HModel}
    (hm : h0.next ≤ m.defRef) (c : C) (v : V) (i : Nat) :
    readRecord db (HModel.setF m h' c v) i = readRecord db h' i := by
  simp only [readRecord, HModel.setF]
  cases hl : alookup db.records i with
  | none => rfl
  | some ref =>
      have href : ref < h0.next := hwf (i, ref) (alookup_mem hl)
      have hne : ref ≠ m.defRef := by omega
      simp only [Option.some_bind]
      exact read_writeField_ne h' m.defRef c v hne

/-! Claim results. -/

/-- Claim C1, counterexample: `where("id", v)` does not replace the query
scope with the single matching entry.  In `dbC1` the scope already holds
record 2; identity 1 is present in the records, yet after `where("id", 1)`
the scope holds records 2 and 1 — the matching entry was added, not
substituted for the scope. -/
theorem c1_counterexample :
    (alookup dbC1.records 1).isSome = true ∧
    akeys ((dbC1.whereClause (.onId 1)).lastQuery) = [2, 1] ∧
    akeys ((dbC1.whereClause (.onId 1)).lastQuery) ≠ [1] :=
  ⟨by decide, by decide, by decide⟩

/-- Claim C1 as amended: `where("id", v)` performs a direct lookup of `v` in
the record collection and, when present, `Map.set`s the single matching entry
into the existing query scope — keeping every other entry already there — and
leaves the records untouched; when `v` is absent the state is unchanged. -/
theorem c1_theorem [DecidableEq C] [DecidableEq V] (db : Database C V) (v : Nat) :
    (∀ r, alookup db.records v = some r →
        (db.whereClause (.onId v)).lastQuery = aset db.lastQuery v r ∧
        alookup ((db.whereClause (.onId v)).lastQuery) v = some r ∧
        (db.whereClause (.onId v)).records = db.records ∧
        ∀ p ∈ db.lastQuery, p.1 ≠ v → p ∈ (db.whereClause (.onId v)).lastQuery) ∧
    (alookup db.records v = none → db.whereClause (.onId v) = db) := by
  constructor
  · intro r hr
    simp only [Database.whereClause, Database.whereIndexed, hr]
    refine ⟨trivial, ?_, trivial, ?_⟩
    · rw [alookup_aset]
      simp
    · intro p hp hne
      exact mem_aset_of_ne r hp hne
  · intro hr
    simp [Database.whereClause, Database.whereIndexed, hr]

/-- Witness for the amended C1 at a concrete database. -/
theorem c1_witness :
    (dbC1.whereClause (.onId 1)).lastQuery = aset dbC1.lastQuery 1 rec1 :=
  ((c1_theorem dbC1 1).1 rec1 rfl).1

/-- Claim C2, counterexample: `first`/`last` do not clear the query scope
when they return the empty result.  In `dbC2` the scope holds record 1 and
the autoincrement value is 2; `last(true)` finds no entry under key 2 in the
scope, returns empty, and leaves the scope — still holding record 1 — in
place. -/
theorem c2_counterexample :
    ((dbC2.last true).1).isNone = true ∧
    akeys ((dbC2.last true).2.lastQuery) = [1] ∧
    akeys ((dbC2.last true).2.lastQuery) ≠ [] :=
  ⟨by decide, by decide, by decide⟩

/-- Claim C2 as amended: `first`/`last` clear the query scope exactly when
they return a model; when they return the empty result the whole state —
scope included — is left unchanged.  `first` returns a model exactly when
the chosen source is nonempty; `last` exactly when the autoincrement value
is a key of the chosen source. -/
theorem c2_theorem (db : Database C V) (b : Bool) :
    ((db.first b).1.isSome = true → (db.first b).2.lastQuery = []) ∧
    ((db.first b).1.isSome = false → (db.first b).2 = db) ∧
    ((db.first b).1.isSome = !(db.switchRecordsRetrieval b).isEmpty) ∧
    ((db.last b).1.isSome = true → (db.last b).2.lastQuery = []) ∧
    ((db.last b).1.isSome = false → (db.last b).2 = db) ∧
    ((db.last b).1.isSome =
        (alookup (db.switchRecordsRetrieval b) db.autoincrement).isSome) := by
  refine ⟨?_, ?_, ?_, ?_, ?_, ?_⟩
  · intro h
    cases hs : db.switchRecordsRetrieval b with
    | nil => rw [Database.first, hs] at h; simp at h
    | cons q rest => rw [Database.first, hs]
  · intro h
    cases hs : db.switchRecordsRetrieval b with
    | nil => rw [Database.first, hs]
    | cons q rest => rw [Database.first, hs] at h; simp at h
  · cases hs : db.switchRecordsRetrieval b with
    | nil => rw [Database.first, hs]; simp
    | cons q rest => rw [Database.first, hs]; simp
  · intro h
    cases hl : alookup (db.switchRecordsRetrieval b) db.autoincrement with
    | none => rw [Database.last, hl] at h; simp at h
    | some r => rw [Database.last, hl]
  · intro h
    cases hl : alookup (db.switchRecordsRetrieval b) db.autoincrement with
    | none => rw [Database.last, hl]
    | some r => rw [Database.last, hl] at h; simp at h
  · cases hl : alookup (db.switchRecordsRetrieval b) db.autoincrement with
    | none => rw [Database.last, hl]; simp
    | some r => rw [Database.last, hl]; simp

/-- Witness for the amended C2 at a concrete database: a found `first` clears
the scope, an empty `last` leaves the state unchanged. -/
theorem c2_witness :
    (dbC2.last true).2 = dbC2 ∧ (dbC2.first true).2.lastQuery = [] := by
  have h := c2_theorem dbC2 true
  exact ⟨h.2.2.2.2.1 (by decide), h.1 (by decide)⟩

/-- Claim C3: two chained `where` calls on non-identity columns accumulate:
each performs a full scan of the records and `Map.set`s its matches into the
same scope, so (starting from an empty scope) an identity is selected exactly
when its record matches the first call or the second — a union of two
independent scans, not an intersection — and entries selected by the first
call are never removed by the second. -/
theorem c3_theorem [DecidableEq C] [DecidableEq V] (db : Database C V)
    (c1 c2 : C) (v1 v2 : V) (h0 : db.lastQuery = [])
    (hnd : (akeys db.records).Nodup) : C3Concl db c1 c2 v1 v2 := by
  constructor
  · rfl
  · intro i
    simp only [Database.whereClause, Database.whereCol, h0]
    rw [alookup_whereGo _ _ _ _ hnd i]
    cases hl : alookup db.records i with
    | none =>
        simp only []
        rw [alookup_whereGo _ _ _ _ hnd i, hl]
        simp [alookup]
    | some r =>
        simp only []
        by_cases hm2 : r c2 = v2
        · simp [hm2]
        · simp only [hm2, if_false]
          rw [alookup_whereGo _ _ _ _ hnd i, hl]
          by_cases hm1 : r c1 = v1
          · simp [hm1, hm2]
          · simp [hm1, hm2, alookup]

/-- Witness for C3 at a concrete database: the hypotheses hold and the
two-scan union conclusion follows. -/
theorem c3_witness :
    dbC3.lastQuery = [] ∧ (akeys dbC3.records).Nodup ∧ C3Concl dbC3 0 0 1 2 :=
  ⟨rfl, by decide, c3_theorem dbC3 0 0 1 2 rfl (by decide)⟩

/-- Claim C4: when every scope identity is present in the records, `update`
returns no error, rewrites the given column on every scope entry (keeping
the scope populated, for chaining), performs the parallel write on exactly
the scoped records entries, and leaves all other records unchanged; when
some scope identity is absent from the records, `update` raises the
consistency error. -/
theorem c4_theorem [DecidableEq C] (db : Database C V) (c : C) (v : V)
    (hnd : (akeys db.lastQuery).Nodup) :
    ((∀ i ∈ akeys db.lastQuery, i ∈ akeys db.records) →
        (db.update c v).2 = none ∧
        (db.update c v).1.lastQuery =
            db.lastQuery.map (fun p => (p.1, setField p.2 c v)) ∧
        ∀ i, alookup ((db.update c v).1.records) i =
          if i ∈ akeys db.lastQuery
          then (alookup db.records i).map (fun r => setField r c v)
          else alookup db.records i) ∧
    ((∃ i, i ∈ akeys db.lastQuery ∧ i ∉ akeys db.records) →
        ((db.update c v).2).isSome = true) := by
  constructor
  · intro h
    obtain ⟨hs, hr⟩ := updateGo_char hnd h
    refine ⟨?_, ?_, ?_⟩
    · simp only [Database.update]
      exact updateGo_ok h
    · simp only [Database.update]
      exact hs
    · intro i
      simp only [Database.update]
      exact hr i
  · intro h
    simp only [Database.update]
    exact updateGo_err h

/-- Witness for C4 at a concrete database with a valid scope: no error, the
scope entry rewritten, the parallel records write performed. -/
theorem c4_witness :
    (dbC2.update 0 7).2 = none ∧
    (dbC2.update 0 7).1.lastQuery =
        dbC2.lastQuery.map (fun p => (p.1, setField p.2 0 7)) ∧
    ∀ i, alookup ((dbC2.update 0 7).1.records) i =
      if i ∈ akeys dbC2.lastQuery
      then (alookup dbC2.records i).map (fun r => setField r 0 7)
      else alookup dbC2.records i :=
  (c4_theorem dbC2 0 7 (by decide)).1 (by decide)

/-- Claim C5: in every state reachable from a fresh database through the
public interface, every scope identity is a records key, and consequently
`update` never reaches its stale-scope error branch. -/
theorem c5_theorem [DecidableEq C] [DecidableEq V] (ops : List (Op C V)) :
    ScopeSub (runOps emptyDB ops) ∧
    ∀ (c : C) (v : V), ((runOps emptyDB ops).update c v).2 = none := by
  have hs : ScopeSub (runOps (emptyDB : Database C V) ops) :=
    runOps_scopeSub emptyDB_scopeSub ops
  refine ⟨hs, ?_⟩
  intro c v
  simp only [Database.update]
  exact updateGo_ok hs

/-- Claim C6: every `insert` returns the pre-incremented counter value, which
is strictly greater than every identity handed out earlier in the run;
`truncate` clears both maps but keeps the counter, so an insert right after
a truncate continues the sequence. -/
theorem c6_theorem [DecidableEq C] [DecidableEq V] (ops : List (Op C V))
    (d : Rec C V) :
    ((runOps emptyDB ops).insert d).1.id =
        some ((runOps emptyDB ops).autoincrement + 1) ∧
    (∀ i ∈ insertedIds emptyDB ops, i < (runOps emptyDB ops).autoincrement + 1) ∧
    ∀ db : Database C V,
      db.truncate.records = [] ∧ db.truncate.lastQuery = [] ∧
      db.truncate.autoincrement = db.autoincrement ∧
      (db.truncate.insert d).1.id = some (db.autoincrement + 1) := by
  refine ⟨rfl, ?_, ?_⟩
  · intro i hi
    have h1 := insertedIds_le emptyDB ops i hi
    omega
  · intro db
    exact ⟨rfl, rfl, rfl, rfl⟩

/-- Witness for C6: in a run with a truncate between two inserts, identity 1
was handed out and is smaller than the next identity to be assigned. -/
theorem c6_witness :
    (1 : Nat) < (runOps (emptyDB : Database Nat Int) opsC6).autoincrement + 1 :=
  (c6_theorem opsC6 rec3).2.1 1 (by decide)

/-- Claim C7: `last` is a direct lookup of the current autoincrement value in
the chosen map, not a last-by-iteration; concretely, in `dbC7` the record
holding the maximum assigned identity was deleted and `last(false)` returns
the empty result even though two records remain. -/
theorem c7_theorem (db : Database C V) (b : Bool) :
    ((db.last b).1 =
      (alookup (db.switchRecordsRetrieval b) db.autoincrement).map
        (fun r => createFromTemplate r db.autoincrement)) ∧
    ((dbC7.last false).1.isNone = true ∧ dbC7.count false = 2) := by
  constructor
  · cases hl : alookup (db.switchRecordsRetrieval b) db.autoincrement with
    | none => rw [Database.last, hl]; simp
    | some r => rw [Database.last, hl]; simp
  · exact ⟨by decide, by decide⟩

/-- Claim C9: `find` applied to the identity just assigned by `insert` returns
a model carrying exactly the inserted definition's fields, and `find` on an
identity absent from the records returns the empty result (it is a total
function — no error). -/
theorem c9_theorem (db : Database C V) (d : Rec C V) :
    ((db.insert d).1.id = some (db.autoincrement + 1)) ∧
    ((db.insert d).1.fields = d) ∧
    ((db.insert d).2.find (db.autoincrement + 1) =
        some (createFromTemplate d (db.autoincrement + 1))) ∧
    (∀ i, alookup db.records i = none → db.find i = none) := by
  refine ⟨rfl, rfl, ?_, ?_⟩
  · simp [Database.find, Database.insert, alookup_aset]
  · intro i hi
    simp [Database.find, hi]

/-- Witness for C9: `find` on an empty database returns the empty result. -/
theorem c9_witness : (emptyDB : Database Nat Int).find 5 = none :=
  (c9_theorem emptyDB rec1).2.2.2 5 rfl

/-- Claim C8: `delete()` clears the scope unconditionally, removes from the
records exactly the identities present in the scope, returns the number of
records actually removed; hence after a `where` matching N records it returns
N, and a second immediate `delete()` returns 0. -/
theorem c8_theorem [DecidableEq C] [DecidableEq V] (db : Database C V)
    (hnds : (akeys db.lastQuery).Nodup) (hndr : (akeys db.records).Nodup) :
    C8Concl db := by
  refine ⟨rfl, ?_, ?_, rfl, ?_⟩
  · simp only [Database.delete]
    exact deleteGo_count hndr hnds
  · intro i
    simp only [Database.delete]
    exact deleteGo_records hndr i
  · intro cw vw h0
    have hdis : ∀ j ∈ akeys db.records, j ∉ akeys db.lastQuery := by
      rw [h0]
      intro j hj
      simp [akeys]
    have hw : whereGo cw vw db.records db.lastQuery =
        db.records.filter (fun (p : Nat × Rec C V) => decide (p.2 cw = vw)) := by
      rw [whereGo_disjoint cw vw db.records db.lastQuery hndr hdis, h0]
      simp
    have hsub : List.Sublist
        (db.records.filter (fun (p : Nat × Rec C V) => decide (p.2 cw = vw)))
        db.records := List.filter_sublist db.records
    have hknd : (akeys
        (db.records.filter (fun (p : Nat × Rec C V) => decide (p.2 cw = vw)))).Nodup :=
      hndr.sublist (hsub.map Prod.fst)
    have hcount : ((db.whereCol cw vw).delete).1 =
        ((akeys (db.records.filter (fun (p : Nat × Rec C V) => decide (p.2 cw = vw)))).filter
            (fun i => decide (i ∈ akeys db.records))).length := by
      simp only [Database.whereCol, Database.delete, hw]
      exact deleteGo_count hndr hknd
    rw [hcount]
    have hall : ∀ i ∈ akeys
        (db.records.filter (fun (p : Nat × Rec C V) => decide (p.2 cw = vw))),
        decide (i ∈ akeys db.records) = true := by
      intro i hi
      have hmem : i ∈ akeys db.records := (hsub.map Prod.fst).subset hi
      simp [hmem]
    rw [List.filter_eq_self.mpr hall]
    rw [List.countP_eq_length_filter]
    simp [akeys]

/-- Witness for C8 at concrete databases: the hypotheses hold, and the
where-then-delete count equals the number of matching records. -/
theorem c8_witness :
    C8Concl dbC2 ∧
    ((dbC3.whereCol 0 1).delete).1 =
        dbC3.records.countP (fun p => decide (p.2 0 = 1)) :=
  ⟨c8_theorem dbC2 (by decide) (by decide),
   (c8_theorem dbC3 (by decide) (by decide)).2.2.2.2 0 1 rfl⟩

/-- Claim C10: every model handed out by a retrieval operation (`find`,
`first`, `last`, `all`, `get`) proxies to a freshly allocated copy of the
stored definition (built by `Object.assign`), so writing through any such
model's accessors leaves every record stored in the record collection
unchanged — as long as no save-back mechanism is invoked. -/
theorem c10_theorem [DecidableEq C] (db : HDatabase) (h : Heap C V)
    (hwf : RefsBelow db h) : RetrievalsSafe db h := by
  refine ⟨?_, ?_, ?_, ?_, ?_⟩
  · intro index m hm c v i
    cases hl : alookup db.records index with
    | none => simp [HDatabase.findH, hl, optRes] at hm
    | some ref =>
        cases hread : h.read ref with
        | none => simp [HDatabase.findH, hl, hread, optRes] at hm
        | some d =>
            simp only [HDatabase.findH, hl, hread, optRes] at hm ⊢
            have hm' : m = (hCreateFromTemplate h d index).1 := by
              simpa using hm
            subst hm'
            exact readRecord_write_safe hwf le_rfl c v i
  · intro b m hm c v i
    cases hs : hSwitch db b with
    | nil => simp [HDatabase.firstH, hs, optRes] at hm
    | cons q rest =>
        obtain ⟨i0, ref⟩ := q
        cases hread : h.read ref with
        | none => simp [HDatabase.firstH, hs, hread, optRes] at hm
        | some d =>
            simp only [HDatabase.firstH, hs, hread, optRes] at hm ⊢
            have hm' : m = (hCreateFromTemplate h d i0).1 := by
              simpa using hm
            subst hm'
            exact readRecord_write_safe hwf le_rfl c v i
  · intro b m hm c v i
    cases hl : alookup (hSwitch db b) db.autoincrement with
    | none => simp [HDatabase.lastH, hl, optRes] at hm
    | some ref =>
        cases hread : h.read ref with
        | none => simp [HDatabase.lastH, hl, hread, optRes] at hm
        | some d =>
            simp only [HDatabase.lastH, hl, hread, optRes] at hm ⊢
            have hm' : m = (hCreateFromTemplate h d db.autoincrement).1 := by
              simpa using hm
            subst hm'
            exact readRecord_write_safe hwf le_rfl c v i
  · intro m hm c v i
    exact readRecord_write_safe hwf (materializeAll_models_refs h db.records m hm) c v i
  · intro m hm c v i
    exact readRecord_write_safe hwf (materializeAll_models_refs h db.lastQuery m hm) c v i

/-- Witness for C10 at a concrete one-record database and heap. -/
theorem c10_witness : RetrievalsSafe dbHW hHW :=
  c10_theorem dbHW hHW (show ∀ p ∈ dbHW.records, p.2 < hHW.next by decide)
